import Mathlib

set_option linter.unusedVariables false

/-!
Shallow embedding of the cursor/selection text-manipulation engine and the
keyboard-shortcut matcher of the headless-mde repository.  Buffers are lists
of characters; the textarea state carries the buffer value together with the
selection offsets and direction.  Definitions mirror the source functions.
-/

/-- Selection direction of the host textarea (`'forward' | 'backward' | 'none'`). -/
inductive SelDir where
  | forward
  | backward
  | noneDir
  deriving DecidableEq, Repr

/-- A `Line` record as produced by the `Cursor.lines` getter. -/
structure Line where
  text : List Char
  lineNumber : Nat
  startsAt : Nat
  endsAt : Nat
  deriving DecidableEq, Repr

/-- State of the host textarea: buffer value plus selection offsets/direction. -/
structure TAState where
  value : List Char
  selectionStart : Nat
  selectionEnd : Nat
  selectionDirection : SelDir
  deriving DecidableEq, Repr

/-- The caret sentinel `Cursor.MARKER`: the character `\u0000`. -/
def MARKER : Char := Char.ofNat 0

/-- JS `String.prototype.split` with a single-character separator
(`"".split(sep)` is `[""]`, a trailing separator yields a trailing `""`). -/
def splitOnChar (sep : Char) : List Char → List (List Char)
  | [] => [[]]
  | c :: rest =>
    if c = sep then [] :: splitOnChar sep rest
    else
      match splitOnChar sep rest with
      | [] => [[c]]
      | l :: ls => (c :: l) :: ls

/-- Body of the `reduce` in the `Cursor.lines` getter: builds the `Line`
records, threading the running `currentLength` offset and the array index. -/
def linesAux : List (List Char) → Nat → Nat → List Line
  | [], _, _ => []
  | content :: rest, index, currentLength =>
    let isLastLine := rest.isEmpty
    let lineLength := content.length + (if isLastLine then 0 else 1)
    let startsAt := currentLength
    let endsAt := startsAt + lineLength - (if isLastLine then 0 else 1)
    { text := content, lineNumber := index + 1, startsAt := startsAt, endsAt := endsAt }
      :: linesAux rest (index + 1) (currentLength + lineLength)

/-- The `Cursor.lines` getter: line records of a buffer, splitting on `'\n'`. -/
def lines (t : List Char) : List Line := linesAux (splitOnChar '\n' t) 0 0

/-- Model of `isBtwOrEq` from `utils.ts`: `value >= min a b && value <= max a b`. -/
def isBtwOrEq (value a b : Nat) : Bool :=
  decide (value ≥ min a b) && decide (value ≤ max a b)

/-- JS `String.prototype.jsSlice` restricted to non-negative indices. -/
def jsSlice (l : List Char) (a b : Nat) : List Char := (l.drop a).take (b - a)

/-- The `Selection` snapshot returned by the `Cursor.selection` getter. -/
structure Selection where
  lines : List Line
  text : List Char
  selectionStart : Nat
  selectionEnd : Nat
  selectionDirection : SelDir
  deriving DecidableEq, Repr

/-- The `Cursor.selection` getter. -/
def selection (st : TAState) : Option Selection :=
  let selectionStart := st.selectionStart
  let selectionEnd := st.selectionEnd
  let text := jsSlice st.value selectionStart selectionEnd
  let selLines := (lines st.value).filter fun line =>
    isBtwOrEq selectionStart line.startsAt line.endsAt ||
    isBtwOrEq selectionEnd line.startsAt line.endsAt ||
    isBtwOrEq line.startsAt selectionStart selectionEnd ||
    isBtwOrEq line.endsAt selectionStart selectionEnd
  if selectionStart = selectionEnd then none
  else
    some { lines := selLines, text := text, selectionStart := selectionStart,
           selectionEnd := selectionEnd, selectionDirection := st.selectionDirection }

/-- The `cursorAt` field of `Cursor.position`: the raw `selectionStart`. -/
def cursorAt (st : TAState) : Nat := st.selectionStart

/-- The `Position` record of the `Cursor.position` getter. -/
structure Position where
  line : Line
  cursorAt : Nat
  deriving DecidableEq, Repr

/-- The `Cursor.position` getter; `none` models the case where the
non-null-asserted `find` produces no line (a contract violation). -/
def position (st : TAState) : Option Position :=
  ((lines st.value).find? fun line =>
      decide (st.selectionStart ≥ line.startsAt) && decide (st.selectionStart ≤ line.endsAt)).map
    fun line => { line := line, cursorAt := st.selectionStart }

/-- Model of `Cursor.lineAt`: `this.lines[lineNumber - 1] ?? null`. -/
def lineAt (st : TAState) (lineNumber : Int) : Option Line :=
  if 0 ≤ lineNumber - 1 then (lines st.value)[(lineNumber - 1).toNat]? else none

/-- Net effect of `fireInput(input, value, start, end)` on the textarea state:
replace the range `[start, end)` of the buffer with `value` and leave a
collapsed caret right after the inserted text. -/
def fireInput (st : TAState) (v : List Char) (start e : Nat) : TAState :=
  { value := st.value.take start ++ v ++ st.value.drop e,
    selectionStart := start + v.length,
    selectionEnd := start + v.length,
    selectionDirection := st.selectionDirection }

/-- JS `String.prototype.indexOf` for a single character (`none` models `-1`). -/
def firstIdxOf (c : Char) : List Char → Option Nat
  | [] => none
  | x :: xs => if x = c then some 0 else (firstIdxOf c xs).map (· + 1)

/-- JS `String.prototype.lastIndexOf` for a single character (`none` models `-1`). -/
def lastIdxOf (c : Char) : List Char → Option Nat
  | [] => none
  | x :: xs =>
    match lastIdxOf c xs with
    | some i => some (i + 1)
    | none => if x = c then some 0 else none

/-- Result record of `Cursor.execRaw`. -/
structure ExecResult where
  text : List Char
  selectionStart : Option Nat
  selectionEnd : Option Nat
  deriving DecidableEq, Repr

/-- Model of `Cursor.execRaw`: strip the caret markers and report their offsets. -/
def execRaw (text : List Char) : ExecResult :=
  let fIndex := firstIdxOf MARKER text
  let lIndex := lastIdxOf MARKER text
  let stripped := if fIndex.isSome && lIndex.isSome then text.filter (· ≠ MARKER) else text
  match fIndex with
  | none => { text := stripped, selectionStart := none, selectionEnd := none }
  | some f =>
    { text := stripped,
      selectionStart := some f,
      selectionEnd :=
        match lIndex with
        | none => none
        | some l => if l = f then none else some (l - 1) }

/-- The marker-injection policies of `Cursor.normalizeSelection`. -/
inductive MarkerPolicy where
  | TO_START
  | TO_END
  | SELECT_ALL
  deriving DecidableEq, Repr

/-- Model of `Cursor.normalizeSelection`. -/
def normalizeSelection (text : List Char) (defaultBehavior : MarkerPolicy) : List Char :=
  if MARKER ∈ text then text
  else
    match defaultBehavior with
    | .TO_START => MARKER :: text
    | .TO_END => text ++ [MARKER]
    | .SELECT_ALL => MARKER :: text ++ [MARKER]

namespace Cursor

/-- Model of `Cursor.insertAtCursor` (private).  `testEnv` selects the
`process.env.NODE_ENV === 'test'` branch of the source. -/
def insertAtCursor (testEnv : Bool) (st : TAState) (content : List Char) : TAState :=
  let curAt := cursorAt st
  let data := execRaw (normalizeSelection content .TO_END)
  let st' :=
    if testEnv then
      { st with value := st.value.take curAt ++ data.text ++ st.value.drop curAt }
    else fireInput st data.text curAt curAt
  match data.selectionStart with
  | none => st'
  | some ss =>
    { st' with selectionStart := curAt + ss, selectionEnd := curAt + (data.selectionEnd.getD ss) }

/-- Model of `Cursor.insert`. -/
def insert (testEnv : Bool) (st : TAState) (content : List Char) : TAState :=
  let normalizedContent := normalizeSelection content .TO_END
  match selection st with
  | none => insertAtCursor testEnv st content
  | some sel =>
    let start := sel.selectionStart
    let e := sel.selectionEnd
    let data := execRaw normalizedContent
    let st' :=
      if testEnv then
        { st with value := st.value.take start ++ data.text ++ st.value.drop e }
      else fireInput st data.text start e
    match data.selectionStart, data.selectionEnd with
    | some ss, some se => { st' with selectionStart := start + ss, selectionEnd := start + se }
    | _, _ => st'

end Cursor

/-- JS `String.prototype.indexOf` for a substring (`none` models `-1`). -/
def strIndexOf (hay needle : List Char) : Option Nat :=
  if needle.isPrefixOf hay then some 0
  else
    match hay with
    | [] => none
    | _ :: t => (strIndexOf t needle).map (· + 1)

/-- Model of `Cursor.replace`: replace the first occurrence of `searchText`. -/
def replace (st : TAState) (searchText replacement : List Char) : TAState :=
  match strIndexOf st.value searchText with
  | none => st
  | some searchStart => fireInput st replacement searchStart (searchStart + searchText.length)

/-- The console-error message emitted by `Cursor.replaceLine`. -/
def errUnknownLine (lineNumber : Int) : List Char :=
  ("Unknown line number: " ++ toString lineNumber).toList

/-- Model of `Cursor.replaceLine`; the result pairs the new state with the list of
console-error messages.  In the delete branch the JS range start
`line.startsAt - 1` can be `-1` for line 1; the model truncates to 0
(no claim depends on that branch). -/
def replaceLine (st : TAState) (lineNumber : Int) (content : Option (List Char)) :
    TAState × List (List Char) :=
  match lineAt st lineNumber with
  | none => (st, [errUnknownLine lineNumber])
  | some line =>
    let start := line.startsAt
    let e := line.endsAt
    match content with
    | none =>
      let data := execRaw []
      let st' := fireInput st data.text (start - 1) e
      match data.selectionStart with
      | some ss =>
        ({ st' with selectionStart := start - 1 + ss, selectionEnd := start - 1 + ss }, [])
      | none => (st', [])
    | some c =>
      let data := execRaw (normalizeSelection c .TO_END)
      let st' := fireInput st data.text start e
      match data.selectionStart, data.selectionEnd with
      | some ss, some se =>
        ({ st' with selectionStart := start + ss, selectionEnd := start + se }, [])
      | _, _ => (st', [])

/-- Value of `this.selection?.selectionStart ?? this.position.cursorAt`. -/
def selStartOrCaret (st : TAState) : Nat :=
  match selection st with
  | some sel => sel.selectionStart
  | none => cursorAt st

/-- Value of `this.selection?.selectionEnd ?? this.position.cursorAt`. -/
def selEndOrCaret (st : TAState) : Nat :=
  match selection st with
  | some sel => sel.selectionEnd
  | none => cursorAt st

/-- Model of `Cursor.isSelectedWrappedWith` (the bounds check is done over `Int`,
mirroring the JS number arithmetic). -/
def isSelectedWrappedWith (st : TAState) (markup : List Char × List Char) : Bool :=
  let pre := markup.1
  let suf := markup.2
  let start := selStartOrCaret st
  let e := selEndOrCaret st
  if decide ((start : Int) - (pre.length : Int) < 0) ||
      decide ((e : Int) - 1 + (suf.length : Int) > (st.value.length : Int) - 1) then
    false
  else
    decide (jsSlice st.value (start - pre.length) start = pre) &&
    decide (jsSlice st.value e (e + suf.length) = suf)

/-- Model of `Cursor.wrap` (markup already split into the `[prefix, suffix]` pair). -/
def wrap (st : TAState) (markup : List Char × List Char) (unwrapOpt : Bool)
    (placeholder : List Char) : TAState :=
  let pre := markup.1
  let suf := markup.2
  let text := st.value
  let start := selStartOrCaret st
  let e := selEndOrCaret st
  if isSelectedWrappedWith st markup && unwrapOpt then
    let unwrappedContent := MARKER :: (jsSlice text start e ++ [MARKER])
    let data := execRaw unwrappedContent
    let st' := fireInput st data.text (start - pre.length) (e + suf.length)
    match data.selectionStart, data.selectionEnd with
    | some ss, some se =>
      { st' with selectionStart := start - pre.length + ss,
                 selectionEnd := start - pre.length + se }
    | _, _ => st'
  else
    let inner := if (jsSlice text start e).isEmpty then placeholder else jsSlice text start e
    let wrappedContent := pre ++ MARKER :: (inner ++ MARKER :: suf)
    let data := execRaw wrappedContent
    let st' := fireInput st data.text start e
    match data.selectionStart, data.selectionEnd with
    | some ss, some se =>
      { st' with selectionStart := start + ss, selectionEnd := start + se }
    | _, _ => st'

/-- A key-press event (the fields of `KeyboardEvent` consulted by the matcher). -/
structure KeyEvent where
  key : List Char
  code : List Char
  ctrlKey : Bool
  metaKey : Bool
  altKey : Bool
  shiftKey : Bool
  deriving DecidableEq, Repr

/-- The modifier set built by `parseShortcut` (only the four recognized
modifier names are ever added or queried). -/
structure Mods where
  control : Bool
  meta : Bool
  alt : Bool
  shift : Bool
  deriving DecidableEq, Repr

/-- Model of the `KEY_ALIASES` lookup; `isMac` models the `navigator.platform` sniff for `mod`. -/
def keyAlias (isMac : Bool) (part : List Char) : List Char :=
  if part = "command".toList then "meta".toList
  else if part = "cmd".toList then "meta".toList
  else if part = "ctrl".toList then "control".toList
  else if part = "option".toList then "alt".toList
  else if part = "mod".toList then (if isMac then "meta".toList else "control".toList)
  else part

/-- Effect of `modifiers.add(normalized)` restricted to the four recognized names. -/
def addMod (m : Mods) (s : List Char) : Mods :=
  if s = "meta".toList then { m with meta := true }
  else if s = "control".toList then { m with control := true }
  else if s = "alt".toList then { m with alt := true }
  else if s = "shift".toList then { m with shift := true }
  else m

/-- Loop of `parseShortcut` over the `+`-separated parts. -/
def parseShortcutAux (isMac : Bool) : List (List Char) → List Char → Mods → List Char × Mods
  | [], key, mods => (key, mods)
  | part :: rest, key, mods =>
    let normalized := keyAlias isMac part
    if normalized = "meta".toList ∨ normalized = "control".toList ∨
        normalized = "alt".toList ∨ normalized = "shift".toList then
      parseShortcutAux isMac rest key (addMod mods normalized)
    else parseShortcutAux isMac rest normalized mods

/-- Model of `parseShortcut`. -/
def parseShortcut (isMac : Bool) (shortcut : List Char) : List Char × Mods :=
  parseShortcutAux isMac (splitOnChar '+' (shortcut.map Char.toLower)) []
    { control := false, meta := false, alt := false, shift := false }

/-- Model of `matchesShortcut`. -/
def matchesShortcut (isMac : Bool) (event : KeyEvent) (shortcut : List Char) : Bool :=
  let parsed := parseShortcut isMac shortcut
  let key := parsed.1
  let mods := parsed.2
  let eventKey := event.key.map Char.toLower
  let eventCode := event.code.map Char.toLower
  let keyMatches :=
    decide (eventKey = key) || decide (eventCode = key) ||
    decide (eventCode = "key".toList ++ key) ||
    (decide (key = "backspace".toList) &&
      (decide (eventKey = "backspace".toList) || decide (eventCode = "backspace".toList)))
  if !keyMatches then false
  else
    (event.ctrlKey == mods.control) && (event.metaKey == mods.meta) &&
    (event.altKey == mods.alt) && (event.shiftKey == mods.shift)

/-- The keydown listener of `KeyboardShortcuts`: walk the registered bindings
in order and return the handler of the first match (handlers abstracted). -/
def dispatchKey {α : Type} (isMac : Bool) : List (List Char × α) → KeyEvent → Option α
  | [], _ => none
  | binding :: rest, event =>
    if matchesShortcut isMac event binding.1 then some binding.2
    else dispatchKey isMac rest event

/-- Adjacent lines meet exactly: `line[i].endsAt + 1 = line[i+1].startsAt`. -/
def contiguous : List Line → Bool
  | [] => true
  | [_] => true
  | a :: b :: rest => decide (a.endsAt + 1 = b.startsAt) && contiguous (b :: rest)

/-- Buffer length represented by a list of split segments: content lengths
plus one separator between adjacent segments. -/
def totalLen (ls : List (List Char)) : Nat := (ls.map List.length).sum + (ls.length - 1)

/-! ### Line index lemmas -/

theorem splitOnChar_ne_nil (sep : Char) (l : List Char) : splitOnChar sep l ≠ [] := by
  cases l with
  | nil => simp [splitOnChar]
  | cons c rest =>
    unfold splitOnChar
    split
    · simp
    · split <;> simp

theorem totalLen_splitOnChar (sep : Char) (l : List Char) :
    totalLen (splitOnChar sep l) = l.length := by
  induction l with
  | nil => simp [splitOnChar, totalLen]
  | cons c rest ih =>
    unfold splitOnChar
    by_cases h : c = sep
    · have hne := splitOnChar_ne_nil sep rest
      revert ih hne
      cases hs : splitOnChar sep rest with
      | nil => intro _ hne; exact absurd rfl hne
      | cons x xs =>
        intro ih _
        rw [if_pos h]
        simp only [totalLen, List.map_cons, List.sum_cons, List.length_cons,
          List.length_nil] at ih ⊢
        omega
    · rw [if_neg h]
      have hne := splitOnChar_ne_nil sep rest
      revert ih hne
      cases hs : splitOnChar sep rest with
      | nil => intro _ hne; exact absurd rfl hne
      | cons x xs =>
        intro ih _
        simp only [totalLen, List.map_cons, List.sum_cons, List.length_cons] at ih ⊢
        omega

theorem totalLen_cons (c : List Char) (rest : List (List Char)) (h : rest ≠ []) :
    totalLen (c :: rest) = c.length + 1 + totalLen rest := by
  cases rest with
  | nil => exact absurd rfl h
  | cons d ds =>
    simp only [totalLen, List.map_cons, List.sum_cons, List.length_cons]
    omega

theorem linesAux_last (content : List Char) (index currentLength : Nat) :
    linesAux [content] index currentLength =
      [{ text := content, lineNumber := index + 1, startsAt := currentLength,
         endsAt := currentLength + content.length }] := by
  simp [linesAux]

theorem linesAux_cons (content c : List Char) (cs : List (List Char)) (index currentLength : Nat) :
    linesAux (content :: c :: cs) index currentLength =
      { text := content, lineNumber := index + 1, startsAt := currentLength,
        endsAt := currentLength + content.length }
        :: linesAux (c :: cs) (index + 1) (currentLength + content.length + 1) := by
  have harg : currentLength + (content.length + 1) = currentLength + content.length + 1 := by
    omega
  simp [linesAux, harg]

theorem linesAux_ne_nil (ls : List (List Char)) (h : ls ≠ []) (index cur : Nat) :
    linesAux ls index cur ≠ [] := by
  cases ls with
  | nil => exact absurd rfl h
  | cons c rest => simp [linesAux]

theorem linesAux_head_startsAt (ls : List (List Char)) (h : ls ≠ []) (index cur : Nat) :
    ((linesAux ls index cur).head?).map Line.startsAt = some cur := by
  cases ls with
  | nil => exact absurd rfl h
  | cons c rest => cases rest <;> simp [linesAux]

theorem linesAux_getLast_endsAt (ls : List (List Char)) (index cur : Nat) (h : ls ≠ []) :
    ((linesAux ls index cur).getLast?).map Line.endsAt = some (cur + totalLen ls) := by
  induction ls generalizing index cur with
  | nil => exact absurd rfl h
  | cons c rest ih =>
    cases rest with
    | nil =>
      simp only [linesAux_last, List.getLast?_singleton, Option.map_some', totalLen,
        List.map_cons, List.map_nil, List.sum_cons, List.sum_nil, List.length_cons,
        List.length_nil]
      simp
    | cons d ds =>
      rw [linesAux_cons]
      obtain ⟨L, Ls, hE⟩ :=
        List.exists_cons_of_ne_nil (linesAux_ne_nil (d :: ds) (by simp) (index + 1)
          (cur + c.length + 1))
      rw [hE, List.getLast?_cons_cons, ← hE]
      rw [ih (index + 1) (cur + c.length + 1) (by simp)]
      rw [totalLen_cons c (d :: ds) (by simp)]
      congr 1
      omega

theorem contiguous_linesAux (ls : List (List Char)) (index cur : Nat) :
    contiguous (linesAux ls index cur) = true := by
  induction ls generalizing index cur with
  | nil => simp [linesAux, contiguous]
  | cons c rest ih =>
    cases rest with
    | nil => simp [linesAux_last, contiguous]
    | cons d ds =>
      rw [linesAux_cons]
      obtain ⟨L, Ls, hE⟩ :=
        List.exists_cons_of_ne_nil (linesAux_ne_nil (d :: ds) (by simp) (index + 1)
          (cur + c.length + 1))
      have hL : L.startsAt = cur + c.length + 1 := by
        have hh := linesAux_head_startsAt (d :: ds) (by simp) (index + 1) (cur + c.length + 1)
        rw [hE] at hh
        simpa using hh
      rw [hE]
      show (decide (cur + c.length + 1 = L.startsAt) && contiguous (L :: Ls)) = true
      have hc := ih (index + 1) (cur + c.length + 1)
      rw [hE] at hc
      simp [hL, hc]

theorem linesAux_map_text (ls : List (List Char)) (index cur : Nat) :
    (linesAux ls index cur).map Line.text = ls := by
  induction ls generalizing index cur with
  | nil => simp [linesAux]
  | cons c rest ih =>
    cases rest with
    | nil => simp [linesAux_last]
    | cons d ds =>
      rw [linesAux_cons]
      simp [ih]

theorem linesAux_length (ls : List (List Char)) (index cur : Nat) :
    (linesAux ls index cur).length = ls.length := by
  have h := congrArg List.length (linesAux_map_text ls index cur)
  simpa using h

/-- C3: the lines of a buffer partition `[0, len]` contiguously: the index is
non-empty, the first line starts at 0, each line's `endsAt + 1` is the next
line's `startsAt`, the final line ends at the buffer length, and the content
lengths plus the `lineCount - 1` separators sum to the buffer length. -/
theorem lines_partition (t : List Char) :
    lines t ≠ [] ∧
    (lines t).head?.map Line.startsAt = some 0 ∧
    contiguous (lines t) = true ∧
    (lines t).getLast?.map Line.endsAt = some t.length ∧
    ((lines t).map fun l => l.text.length).sum + ((lines t).length - 1) = t.length := by
  have hne := splitOnChar_ne_nil '\n' t
  refine ⟨linesAux_ne_nil _ hne 0 0, linesAux_head_startsAt _ hne 0 0,
    contiguous_linesAux _ 0 0, ?_, ?_⟩
  · have h := linesAux_getLast_endsAt (splitOnChar '\n' t) 0 0 hne
    rw [totalLen_splitOnChar] at h
    simpa [lines] using h
  · have hm : ((lines t).map fun l => l.text.length) = (splitOnChar '\n' t).map List.length := by
      have h := congrArg (List.map List.length) (linesAux_map_text (splitOnChar '\n' t) 0 0)
      rw [List.map_map] at h
      simpa [lines, Function.comp] using h
    have ht := totalLen_splitOnChar '\n' t
    unfold totalLen at ht
    rw [hm, lines, linesAux_length]
    exact ht

theorem linesAux_find_covers (ls : List (List Char)) :
    ∀ (index cur pos : Nat), ls ≠ [] → cur ≤ pos → pos ≤ cur + totalLen ls →
    ∃ L, ((linesAux ls index cur).find? fun line =>
        decide (pos ≥ line.startsAt) && decide (pos ≤ line.endsAt)) = some L ∧
      L.startsAt ≤ pos ∧ pos ≤ L.endsAt := by
  induction ls with
  | nil => intro _ _ _ h; exact absurd rfl h
  | cons c rest ih =>
    intro index cur pos _ h1 h2
    cases rest with
    | nil =>
      rw [linesAux_last]
      have ht : totalLen [c] = c.length := by simp [totalLen]
      have hp : pos ≤ cur + c.length := by omega
      refine ⟨Line.mk c (index + 1) cur (cur + c.length), ?_, h1, hp⟩
      rw [List.find?_cons_of_pos]
      simp [h1, hp]
    | cons d ds =>
      rw [linesAux_cons]
      by_cases hpos : pos ≤ cur + c.length
      · refine ⟨Line.mk c (index + 1) cur (cur + c.length), ?_, h1, hpos⟩
        rw [List.find?_cons_of_pos]
        simp [h1, hpos]
      · have h1' : cur + c.length + 1 ≤ pos := by omega
        have h2' : pos ≤ cur + c.length + 1 + totalLen (d :: ds) := by
          rw [totalLen_cons c (d :: ds) (by simp)] at h2
          omega
        obtain ⟨L, hfind, hLs, hLe⟩ := ih (index + 1) (cur + c.length + 1) pos (by simp) h1' h2'
        refine ⟨L, ?_, hLs, hLe⟩
        rw [List.find?_cons_of_neg, hfind]
        simp [hpos]

/-- C5: for every buffer and every offset `o ≤ len`, the position lookup of
`Cursor.position` succeeds (the asserted `find` never misses) and the found
line satisfies `startsAt ≤ o ≤ endsAt`. -/
theorem position_finds_line (t : List Char) (o e : Nat) (dir : SelDir) (h : o ≤ t.length) :
    (position ⟨t, o, e, dir⟩).isSome = true ∧
    ∀ P, position ⟨t, o, e, dir⟩ = some P →
      P.cursorAt = o ∧ P.line.startsAt ≤ o ∧ o ≤ P.line.endsAt := by
  obtain ⟨L, hfind, hs, he⟩ := linesAux_find_covers (splitOnChar '\n' t) 0 0 o
    (splitOnChar_ne_nil _ _) (Nat.zero_le _)
    (by rw [totalLen_splitOnChar]; simpa using h)
  constructor
  · simp only [position, lines]
    rw [hfind]
    simp
  · intro P hP
    simp only [position, lines] at hP
    rw [hfind] at hP
    simp only [Option.map_some', Option.some.injEq] at hP
    subst hP
    exact ⟨rfl, hs, he⟩

/-- C5 witness: concrete instance at buffer `"hello\nworld"` and offset 7. -/
theorem position_finds_line_witness :
    (position ⟨"hello\nworld".toList, 7, 7, SelDir.noneDir⟩).isSome = true :=
  (position_finds_line "hello\nworld".toList 7 7 SelDir.noneDir (by decide)).1

theorem selection_eq_none_iff (st : TAState) :
    selection st = none ↔ st.selectionStart = st.selectionEnd := by
  unfold selection
  by_cases h : st.selectionStart = st.selectionEnd <;> simp [h]

theorem selection_some_of_ne (st : TAState) (h : st.selectionStart ≠ st.selectionEnd) :
    selection st = some
      { lines := (lines st.value).filter fun line =>
          isBtwOrEq st.selectionStart line.startsAt line.endsAt ||
          isBtwOrEq st.selectionEnd line.startsAt line.endsAt ||
          isBtwOrEq line.startsAt st.selectionStart st.selectionEnd ||
          isBtwOrEq line.endsAt st.selectionStart st.selectionEnd,
        text := jsSlice st.value st.selectionStart st.selectionEnd,
        selectionStart := st.selectionStart,
        selectionEnd := st.selectionEnd,
        selectionDirection := st.selectionDirection } := by
  simp only [selection]
  rw [if_neg h]

/-- C6: the selection accessor returns `none` exactly when the offsets
coincide, and otherwise the snapshot records the offsets and contains exactly
the lines accepted by the symmetric four-way `isBtwOrEq` overlap test. -/
theorem selection_characterization (t : List Char) (s e : Nat) (dir : SelDir) (hse : s ≤ e) :
    (selection ⟨t, s, e, dir⟩ = none ↔ s = e) ∧
    ∀ snap, selection ⟨t, s, e, dir⟩ = some snap →
      snap.selectionStart = s ∧ snap.selectionEnd = e ∧
      ∀ L, L ∈ snap.lines ↔ L ∈ lines t ∧
        (isBtwOrEq s L.startsAt L.endsAt = true ∨ isBtwOrEq e L.startsAt L.endsAt = true ∨
         isBtwOrEq L.startsAt s e = true ∨ isBtwOrEq L.endsAt s e = true) := by
  constructor
  · exact selection_eq_none_iff ⟨t, s, e, dir⟩
  · intro snap hsnap
    by_cases h : s = e
    · rw [(selection_eq_none_iff ⟨t, s, e, dir⟩).mpr h] at hsnap
      cases hsnap
    · rw [selection_some_of_ne ⟨t, s, e, dir⟩ h] at hsnap
      injection hsnap with hsnap
      subst hsnap
      refine ⟨rfl, rfl, ?_⟩
      intro L
      show L ∈ (lines t).filter _ ↔ _
      rw [List.mem_filter]
      simp only [Bool.or_eq_true]
      tauto

/-- C6 witness: concrete instance with a non-trivial selection. -/
theorem selection_characterization_witness :
    selection ⟨"line 1\nline 2".toList, 2, 9, SelDir.forward⟩ = none ↔ 2 = 9 :=
  (selection_characterization "line 1\nline 2".toList 2 9 SelDir.forward (by decide)).1

/-! ### Marker lemmas -/

theorem firstIdxOf_eq_none (c : Char) (l : List Char) (h : c ∉ l) : firstIdxOf c l = none := by
  induction l with
  | nil => rfl
  | cons x xs ih =>
    have hx : ¬ x = c := by
      rintro rfl
      exact h (List.mem_cons_self _ _)
    simp only [firstIdxOf, if_neg hx]
    rw [ih fun hm => h (List.mem_cons_of_mem _ hm)]
    rfl

theorem lastIdxOf_eq_none (c : Char) (l : List Char) (h : c ∉ l) : lastIdxOf c l = none := by
  induction l with
  | nil => rfl
  | cons x xs ih =>
    have hx : ¬ x = c := by
      rintro rfl
      exact h (List.mem_cons_self _ _)
    simp only [lastIdxOf]
    rw [ih fun hm => h (List.mem_cons_of_mem _ hm)]
    simp [hx]

theorem firstIdxOf_append_cons (c : Char) (xs r : List Char) (h : c ∉ xs) :
    firstIdxOf c (xs ++ c :: r) = some xs.length := by
  induction xs with
  | nil => simp [firstIdxOf]
  | cons x t ih =>
    have hx : ¬ x = c := by
      rintro rfl
      exact h (List.mem_cons_self _ _)
    simp only [List.cons_append, firstIdxOf, if_neg hx, List.append_eq]
    rw [ih fun hm => h (List.mem_cons_of_mem _ hm)]
    rfl

theorem lastIdxOf_append_of_some (c : Char) (xs r : List Char) (i : Nat)
    (h : lastIdxOf c r = some i) : lastIdxOf c (xs ++ r) = some (xs.length + i) := by
  induction xs with
  | nil => simpa using h
  | cons x t ih =>
    simp only [List.cons_append, lastIdxOf, List.append_eq]
    rw [ih]
    simp only [List.length_cons, Option.some.injEq]
    omega

theorem lastIdxOf_cons_self (c : Char) (zs : List Char) (h : c ∉ zs) :
    lastIdxOf c (c :: zs) = some 0 := by
  simp [lastIdxOf, lastIdxOf_eq_none c zs h]

theorem filter_ne_of_not_mem (c : Char) (l : List Char) (h : c ∉ l) :
    l.filter (· ≠ c) = l := by
  apply List.filter_eq_self.mpr
  intro a ha
  simp only [decide_eq_true_iff]
  rintro rfl
  exact h ha

theorem filter_ne_cons_self (c : Char) (l : List Char) :
    (c :: l).filter (· ≠ c) = l.filter (· ≠ c) := by
  rw [List.filter_cons]
  simp

/-- Helper: `execRaw` on content with exactly two markers. -/
theorem execRaw_two_aux (xs ys zs : List Char)
    (hx : MARKER ∉ xs) (hy : MARKER ∉ ys) (hz : MARKER ∉ zs) :
    execRaw (xs ++ MARKER :: (ys ++ MARKER :: zs)) =
      { text := xs ++ ys ++ zs,
        selectionStart := some xs.length,
        selectionEnd := some (xs.length + ys.length) } := by
  have hf : firstIdxOf MARKER (xs ++ MARKER :: (ys ++ MARKER :: zs)) = some xs.length :=
    firstIdxOf_append_cons MARKER xs _ hx
  have hly : lastIdxOf MARKER (ys ++ MARKER :: zs) = some ys.length := by
    have h := lastIdxOf_append_of_some MARKER ys (MARKER :: zs) 0 (lastIdxOf_cons_self _ _ hz)
    simpa using h
  have hl : lastIdxOf MARKER (xs ++ MARKER :: (ys ++ MARKER :: zs)) =
      some (xs.length + (ys.length + 1)) := by
    have h1 : lastIdxOf MARKER (MARKER :: (ys ++ MARKER :: zs)) = some (ys.length + 1) := by
      simp [lastIdxOf, hly]
    exact lastIdxOf_append_of_some MARKER xs _ _ h1
  have hfilter : (xs ++ MARKER :: (ys ++ MARKER :: zs)).filter (· ≠ MARKER) =
      xs ++ ys ++ zs := by
    rw [List.filter_append, filter_ne_of_not_mem _ _ hx, filter_ne_cons_self,
      List.filter_append, filter_ne_of_not_mem _ _ hy, filter_ne_cons_self,
      filter_ne_of_not_mem _ _ hz, List.append_assoc]
  have hne : ¬ (xs.length + (ys.length + 1) = xs.length) := by omega
  have h3 : xs.length + (ys.length + 1) - 1 = xs.length + ys.length := by omega
  simp only [execRaw, hf, hl, Option.isSome_some, Bool.and_self, if_true, hfilter,
    if_neg hne, h3]

/-- Helper: `execRaw` on content with exactly one marker. -/
theorem execRaw_one_aux (xs ys : List Char) (hx : MARKER ∉ xs) (hy : MARKER ∉ ys) :
    execRaw (xs ++ MARKER :: ys) =
      { text := xs ++ ys, selectionStart := some xs.length, selectionEnd := none } := by
  have hf : firstIdxOf MARKER (xs ++ MARKER :: ys) = some xs.length :=
    firstIdxOf_append_cons MARKER xs _ hx
  have hl : lastIdxOf MARKER (xs ++ MARKER :: ys) = some (xs.length + 0) :=
    lastIdxOf_append_of_some MARKER xs _ 0 (lastIdxOf_cons_self _ _ hy)
  have hfilter : (xs ++ MARKER :: ys).filter (· ≠ MARKER) = xs ++ ys := by
    rw [List.filter_append, filter_ne_of_not_mem _ _ hx, filter_ne_cons_self,
      filter_ne_of_not_mem _ _ hy]
  simp only [execRaw, hf, hl, Option.isSome_some, Bool.and_self, if_true, hfilter]
  simp

/-- C4: content with exactly two marker sentinels at `f < l` resolves to the
string with both markers removed, `selectionStart = f` and
`selectionEnd = l - 1`, compensating for the removal of the first marker. -/
theorem execRaw_two_markers (xs ys zs : List Char)
    (hx : MARKER ∉ xs) (hy : MARKER ∉ ys) (hz : MARKER ∉ zs) :
    firstIdxOf MARKER (xs ++ MARKER :: (ys ++ MARKER :: zs)) = some xs.length ∧
    lastIdxOf MARKER (xs ++ MARKER :: (ys ++ MARKER :: zs)) =
      some (xs.length + 1 + ys.length) ∧
    execRaw (xs ++ MARKER :: (ys ++ MARKER :: zs)) =
      { text := xs ++ ys ++ zs,
        selectionStart := some xs.length,
        selectionEnd := some (xs.length + 1 + ys.length - 1) } := by
  refine ⟨firstIdxOf_append_cons MARKER xs _ hx, ?_, ?_⟩
  · have h0 := lastIdxOf_append_of_some MARKER ys (MARKER :: zs) 0 (lastIdxOf_cons_self _ _ hz)
    have h1 : lastIdxOf MARKER (MARKER :: (ys ++ MARKER :: zs)) = some (ys.length + 1) := by
      show (match lastIdxOf MARKER (ys ++ MARKER :: zs) with
        | some i => some (i + 1)
        | none => if MARKER = MARKER then some 0 else none) = some (ys.length + 1)
      rw [h0]
    have h2 := lastIdxOf_append_of_some MARKER xs _ _ h1
    rw [h2]
    simp only [Option.some.injEq]
    omega
  · rw [execRaw_two_aux xs ys zs hx hy hz]
    have h3 : xs.length + 1 + ys.length - 1 = xs.length + ys.length := by omega
    rw [h3]

/-- C4 witness: `execRaw` on `"a" ++ MARKER ++ "b" ++ MARKER ++ "c"`. -/
theorem execRaw_two_markers_witness :
    execRaw ("a".toList ++ MARKER :: ("b".toList ++ MARKER :: "c".toList)) =
      { text := "a".toList ++ "b".toList ++ "c".toList,
        selectionStart := some "a".toList.length,
        selectionEnd := some ("a".toList.length + 1 + "b".toList.length - 1) } :=
  (execRaw_two_markers "a".toList "b".toList "c".toList (by decide) (by decide) (by decide)).2.2

/-- C10: marker-free content resolves to itself with no caret-placement
instruction (`selectionStart = null`, `selectionEnd = null`). -/
theorem execRaw_no_marker (content : List Char) (h : MARKER ∉ content) :
    execRaw content = { text := content, selectionStart := none, selectionEnd := none } := by
  simp only [execRaw, firstIdxOf_eq_none _ _ h, lastIdxOf_eq_none _ _ h]
  simp

/-- C10 witness: `execRaw` on the marker-free string `"abc"`. -/
theorem execRaw_no_marker_witness :
    execRaw "abc".toList =
      { text := "abc".toList, selectionStart := none, selectionEnd := none } :=
  execRaw_no_marker "abc".toList (by decide)

/-! ### replaceLine and replace -/

theorem lineAt_eq_none_iff (st : TAState) (n : Int) :
    lineAt st n = none ↔ n < 1 ∨ ((lines st.value).length : Int) < n := by
  unfold lineAt
  by_cases h : 0 ≤ n - 1
  · rw [if_pos h]
    constructor
    · intro hg
      right
      have hlen := List.getElem?_eq_none_iff.mp hg
      omega
    · intro hg
      apply List.getElem?_eq_none
      omega
  · rw [if_neg h]
    constructor
    · intro _
      left
      omega
    · intro _
      rfl

/-- C8: `replaceLine` with a line number outside `[1, lineCount]` reports the
failure on the console-error channel and leaves the buffer and the selection
completely unchanged (the model is a total function, so no exception). -/
theorem replaceLine_out_of_range (st : TAState) (n : Int) (content : Option (List Char))
    (h : n < 1 ∨ ((lines st.value).length : Int) < n) :
    replaceLine st n content = (st, [errUnknownLine n]) := by
  unfold replaceLine
  rw [(lineAt_eq_none_iff st n).mpr h]

/-- C8 witness: line 10 of a two-line buffer. -/
theorem replaceLine_out_of_range_witness :
    replaceLine ⟨"line 1\nline 2".toList, 0, 0, SelDir.noneDir⟩ 10 (some "test".toList) =
      (⟨"line 1\nline 2".toList, 0, 0, SelDir.noneDir⟩, [errUnknownLine 10]) :=
  replaceLine_out_of_range ⟨"line 1\nline 2".toList, 0, 0, SelDir.noneDir⟩ 10
    (some "test".toList) (by decide)

theorem strIndexOf_eq_none_iff (hay needle : List Char) :
    strIndexOf hay needle = none ↔ ∀ i, needle.isPrefixOf (hay.drop i) = false := by
  induction hay with
  | nil =>
    unfold strIndexOf
    by_cases h : needle.isPrefixOf [] = true
    · rw [if_pos h]
      constructor
      · intro hc
        cases hc
      · intro hall
        have h0 := hall 0
        rw [List.drop_nil] at h0
        rw [h] at h0
        cases h0
    · rw [if_neg h]
      rw [Bool.not_eq_true] at h
      constructor
      · intro _ i
        rw [List.drop_nil]
        exact h
      · intro _
        rfl
  | cons x t ih =>
    unfold strIndexOf
    by_cases h : needle.isPrefixOf (x :: t) = true
    · rw [if_pos h]
      constructor
      · intro hc
        cases hc
      · intro hall
        have h0 := hall 0
        rw [List.drop_zero] at h0
        rw [h] at h0
        cases h0
    · rw [if_neg h]
      rw [Bool.not_eq_true] at h
      show (strIndexOf t needle).map (· + 1) = none ↔ _
      rw [Option.map_eq_none', ih]
      constructor
      · intro hall i
        cases i with
        | zero =>
          rw [List.drop_zero]
          exact h
        | succ j =>
          have := hall j
          simpa using this
      · intro hall j
        have := hall (j + 1)
        simpa using this

theorem strIndexOf_eq_some (hay needle : List Char) :
    ∀ i, strIndexOf hay needle = some i →
      needle.isPrefixOf (hay.drop i) = true ∧
      ∀ j, j < i → needle.isPrefixOf (hay.drop j) = false := by
  induction hay with
  | nil =>
    intro i h
    unfold strIndexOf at h
    by_cases hp : needle.isPrefixOf [] = true
    · rw [if_pos hp] at h
      injection h with h
      subst h
      exact ⟨by simpa using hp, fun j hj => absurd hj (by omega)⟩
    · rw [if_neg hp] at h
      cases h
  | cons x t ih =>
    intro i h
    unfold strIndexOf at h
    by_cases hp : needle.isPrefixOf (x :: t) = true
    · rw [if_pos hp] at h
      injection h with h
      subst h
      exact ⟨by simpa using hp, fun j hj => absurd hj (by omega)⟩
    · rw [if_neg hp] at h
      rw [Bool.not_eq_true] at hp
      replace h : (strIndexOf t needle).map (· + 1) = some i := h
      cases hs : strIndexOf t needle with
      | none =>
        rw [hs] at h
        cases h
      | some i' =>
        rw [hs] at h
        simp only [Option.map_some', Option.some.injEq] at h
        subst h
        obtain ⟨h1, h2⟩ := ih i' hs
        refine ⟨by simpa using h1, ?_⟩
        intro j hj
        cases j with
        | zero =>
          rw [List.drop_zero]
          exact hp
        | succ k =>
          have := h2 k (by omega)
          simpa using this

/-- C9: `Cursor.replace` leaves the state unchanged when the search text does
not occur, and otherwise replaces exactly the leftmost occurrence, preserving
every character before it and after it. -/
theorem replace_first_occurrence (st : TAState) (searchText replacement : List Char) :
    ((∀ i, searchText.isPrefixOf (st.value.drop i) = false) →
      replace st searchText replacement = st) ∧
    (∀ i, searchText.isPrefixOf (st.value.drop i) = true →
      strIndexOf st.value searchText ≠ none) ∧
    ∀ i, strIndexOf st.value searchText = some i →
      searchText.isPrefixOf (st.value.drop i) = true ∧
      (∀ j, j < i → searchText.isPrefixOf (st.value.drop j) = false) ∧
      (replace st searchText replacement).value =
        st.value.take i ++ replacement ++ st.value.drop (i + searchText.length) := by
  refine ⟨?_, ?_, ?_⟩
  · intro hall
    unfold replace
    rw [(strIndexOf_eq_none_iff _ _).mpr hall]
  · intro i hi hnone
    have := (strIndexOf_eq_none_iff st.value searchText).mp hnone i
    rw [hi] at this
    cases this
  · intro i hi
    obtain ⟨h1, h2⟩ := strIndexOf_eq_some _ _ i hi
    refine ⟨h1, h2, ?_⟩
    unfold replace
    rw [hi]
    rfl

/-- C9 witness: replacing `"hello"` with `"hi"` in `"hello hello"`. -/
theorem replace_first_occurrence_witness :
    (replace ⟨"hello hello".toList, 0, 0, SelDir.noneDir⟩ "hello".toList "hi".toList).value =
      "hello hello".toList.take 0 ++ "hi".toList ++
        "hello hello".toList.drop (0 + "hello".toList.length) :=
  ((replace_first_occurrence ⟨"hello hello".toList, 0, 0, SelDir.noneDir⟩ "hello".toList
    "hi".toList).2.2 0 (by decide)).2.2

/-! ### Keyboard shortcut matching -/

/-- C7: a key event matches a binding only if its active-modifier set equals
the parsed modifier set exactly (an extra held modifier is a non-match); the
dispatcher invokes the first-registered matching binding and stops; and the
spec `"ctrl+shift+a"` matches ctrl+shift+`a` but not when meta is also held. -/
theorem shortcut_exact_match (α : Type) (isMac : Bool) :
    (∀ (event : KeyEvent) (shortcut : List Char),
      matchesShortcut isMac event shortcut = true →
      event.ctrlKey = (parseShortcut isMac shortcut).2.control ∧
      event.metaKey = (parseShortcut isMac shortcut).2.meta ∧
      event.altKey = (parseShortcut isMac shortcut).2.alt ∧
      event.shiftKey = (parseShortcut isMac shortcut).2.shift) ∧
    (∀ (bs1 bs2 : List (List Char × α)) (b : List Char × α) (event : KeyEvent),
      (∀ p ∈ bs1, matchesShortcut isMac event p.1 = false) →
      matchesShortcut isMac event b.1 = true →
      dispatchKey isMac (bs1 ++ b :: bs2) event = some b.2) ∧
    (∀ event : KeyEvent, event.key = "a".toList → event.ctrlKey = true →
      event.shiftKey = true → event.metaKey = false → event.altKey = false →
      matchesShortcut isMac event ("ctrl+shift+a".toList) = true) ∧
    (∀ event : KeyEvent, event.metaKey = true →
      matchesShortcut isMac event ("ctrl+shift+a".toList) = false) := by
  have hparse : parseShortcut isMac ("ctrl+shift+a".toList) =
      ("a".toList, { control := true, meta := false, alt := false, shift := true }) := by
    cases isMac <;> rfl
  refine ⟨?_, ?_, ?_, ?_⟩
  · intro event shortcut h
    simp only [matchesShortcut] at h
    split at h
    · cases h
    · simp only [Bool.and_eq_true, beq_iff_eq] at h
      exact ⟨h.1.1.1, h.1.1.2, h.1.2, h.2⟩
  · intro bs1 bs2 b event hnone hmatch
    induction bs1 with
    | nil =>
      simp only [List.nil_append, dispatchKey]
      rw [if_pos hmatch]
    | cons p ps ih =>
      have hp := hnone p (List.mem_cons_self _ _)
      simp only [List.cons_append, dispatchKey, hp]
      simp only [Bool.false_eq_true, if_false]
      exact ih fun q hq => hnone q (List.mem_cons_of_mem _ hq)
  · intro event hk hc hs hm ha
    have hmap : List.map Char.toLower ("a".toList) = "a".toList := by decide
    simp only [matchesShortcut, hparse, hk, hmap, hc, hs, hm, ha]
    simp
  · intro event hm
    simp only [matchesShortcut, hparse]
    split
    · rfl
    · simp [hm]

/-- C7 witness: dispatching ctrl+shift+`a` through a one-binding list. -/
theorem shortcut_exact_match_witness :
    dispatchKey false [("ctrl+shift+a".toList, (1 : Nat))]
      { key := "a".toList, code := "KeyA".toList, ctrlKey := true, metaKey := false,
        altKey := false, shiftKey := true } = some 1 :=
  (shortcut_exact_match Nat false).2.1 [] [] ("ctrl+shift+a".toList, 1)
    { key := "a".toList, code := "KeyA".toList, ctrlKey := true, metaKey := false,
      altKey := false, shiftKey := true } (by simp) (by decide)

/-! ### Slice and selection helpers -/

theorem selStartOrCaret_eq (st : TAState) : selStartOrCaret st = st.selectionStart := by
  unfold selStartOrCaret cursorAt
  by_cases h : st.selectionStart = st.selectionEnd
  · rw [(selection_eq_none_iff st).mpr h]
  · rw [selection_some_of_ne st h]

theorem selEndOrCaret_eq (st : TAState) : selEndOrCaret st = st.selectionEnd := by
  unfold selEndOrCaret cursorAt
  by_cases h : st.selectionStart = st.selectionEnd
  · rw [(selection_eq_none_iff st).mpr h]
    exact h
  · rw [selection_some_of_ne st h]

theorem jsSlice_middle (x y z : List Char) :
    jsSlice (x ++ (y ++ z)) x.length (x.length + y.length) = y := by
  unfold jsSlice
  rw [List.drop_left, Nat.add_sub_cancel_left, List.take_left]

theorem jsSlice_length_of_le (l : List Char) (a b : Nat) (hab : a ≤ b) (hb : b ≤ l.length) :
    (jsSlice l a b).length = b - a := by
  unfold jsSlice
  rw [List.length_take, List.length_drop]
  omega

theorem jsSlice_ne_nil (l : List Char) (a b : Nat) (hab : a < b) (hb : b ≤ l.length) :
    jsSlice l a b ≠ [] := by
  have hlen := jsSlice_length_of_le l a b (le_of_lt hab) hb
  intro hnil
  rw [hnil] at hlen
  simp at hlen
  omega

theorem take_jsSlice_drop (l : List Char) (a b : Nat) (hab : a ≤ b) :
    l.take a ++ (jsSlice l a b ++ l.drop b) = l := by
  unfold jsSlice
  have h1 : l.drop b = (l.drop a).drop (b - a) := by
    rw [List.drop_drop]
    congr 1
    omega
  rw [h1, List.take_append_drop, List.take_append_drop]

/-! ### insert with markers -/

/-- C1 (amended): with a non-empty selection `[start, end)` and content
holding exactly one marker, `insert` replaces `buffer[start:end]` with the
marker-stripped content, but the caret is NOT moved to `start + markerIndex`:
the explicit repositioning branch of `insert` fires only when both resolved
offsets are non-null, and one marker yields `selectionEnd = null`, so on the
production path the caret collapses at the end of the inserted text
(`start + length(stripped content)`). -/
theorem insert_one_marker (T xs ys : List Char) (a b : Nat) (dir : SelDir)
    (hab : a < b) (hx : MARKER ∉ xs) (hy : MARKER ∉ ys) :
    Cursor.insert false ⟨T, a, b, dir⟩ (xs ++ MARKER :: ys) =
      ⟨T.take a ++ (xs ++ ys) ++ T.drop b,
       a + (xs ++ ys).length, a + (xs ++ ys).length, dir⟩ := by
  have hne : (⟨T, a, b, dir⟩ : TAState).selectionStart ≠
      (⟨T, a, b, dir⟩ : TAState).selectionEnd := by
    show a ≠ b
    omega
  have hmem : MARKER ∈ xs ++ MARKER :: ys := by simp
  have hnorm : normalizeSelection (xs ++ MARKER :: ys) .TO_END = xs ++ MARKER :: ys := by
    unfold normalizeSelection
    rw [if_pos hmem]
  unfold Cursor.insert
  rw [selection_some_of_ne _ hne]
  dsimp only
  rw [hnorm, execRaw_one_aux xs ys hx hy]
  dsimp only
  simp [fireInput]

/-- C1 counterexample: buffer `"hello world"`, selection `[0, 5)`, content
`"X" ++ MARKER ++ "YZ"` (marker index 1, stripped content `"XYZ"`).  The
claim predicts a collapsed caret at `0 + 1 = 1`; the code performs the splice
but leaves the caret at 3 on the production path, and leaves the stale
selection `[0, 5]` on the test path — never a collapsed caret at 1. -/
theorem insert_one_marker_cex :
    (Cursor.insert false ⟨"hello world".toList, 0, 5, SelDir.forward⟩
        ("X".toList ++ MARKER :: "YZ".toList)).value = "XYZ world".toList ∧
    ¬ ((Cursor.insert false ⟨"hello world".toList, 0, 5, SelDir.forward⟩
        ("X".toList ++ MARKER :: "YZ".toList)).selectionStart = 1 ∧
       (Cursor.insert false ⟨"hello world".toList, 0, 5, SelDir.forward⟩
        ("X".toList ++ MARKER :: "YZ".toList)).selectionEnd = 1) ∧
    ¬ ((Cursor.insert true ⟨"hello world".toList, 0, 5, SelDir.forward⟩
        ("X".toList ++ MARKER :: "YZ".toList)).selectionStart = 1 ∧
       (Cursor.insert true ⟨"hello world".toList, 0, 5, SelDir.forward⟩
        ("X".toList ++ MARKER :: "YZ".toList)).selectionEnd = 1) := by
  decide

/-- C1 witness: the amended statement at the counterexample's input. -/
theorem insert_one_marker_witness :
    Cursor.insert false ⟨"hello world".toList, 0, 5, SelDir.forward⟩
        ("X".toList ++ MARKER :: "YZ".toList) =
      ⟨"hello world".toList.take 0 ++ ("X".toList ++ "YZ".toList) ++
        "hello world".toList.drop 5,
       0 + ("X".toList ++ "YZ".toList).length, 0 + ("X".toList ++ "YZ".toList).length,
       SelDir.forward⟩ :=
  insert_one_marker "hello world".toList "X".toList "YZ".toList 0 5 SelDir.forward
    (by decide) (by decide) (by decide)

/-! ### wrap/unwrap -/

theorem jsSlice_mid (x y z : List Char) (m n : Nat) (hm : m = x.length)
    (hn : n = x.length + y.length) : jsSlice (x ++ (y ++ z)) m n = y := by
  subst hm hn
  exact jsSlice_middle x y z

theorem take_left_of_length (x y : List Char) (n : Nat) (h : n = x.length) :
    (x ++ y).take n = x := by
  subst h
  exact List.take_left x y

theorem drop_left_of_length (x y : List Char) (n : Nat) (h : n = x.length) :
    (x ++ y).drop n = y := by
  subst h
  exact List.drop_left x y

/-- Helper: `wrap` on a selection that is not already wrapped inserts the
markup and selects the inner text. -/
theorem wrap_not_wrapped (T pre suf ph : List Char) (a b : Nat) (dir : SelDir)
    (hab : a < b) (hb : b ≤ T.length)
    (hpre : MARKER ∉ pre) (hsuf : MARKER ∉ suf) (hinner : MARKER ∉ jsSlice T a b)
    (hnw : isSelectedWrappedWith ⟨T, a, b, dir⟩ (pre, suf) = false) :
    wrap ⟨T, a, b, dir⟩ (pre, suf) true ph =
      ⟨T.take a ++ (pre ++ jsSlice T a b ++ suf) ++ T.drop b,
       a + pre.length, a + (pre.length + (jsSlice T a b).length), dir⟩ := by
  have hempty : (jsSlice T a b).isEmpty = false := by
    have hnil := jsSlice_ne_nil T a b hab hb
    cases hsl0 : jsSlice T a b with
    | nil => exact absurd hsl0 hnil
    | cons c cs => rfl
  unfold wrap
  rw [selStartOrCaret_eq, selEndOrCaret_eq]
  dsimp only
  rw [hnw]
  simp only [Bool.false_and, Bool.false_eq_true, if_false]
  rw [hempty]
  simp only [Bool.false_eq_true, if_false]
  rw [execRaw_two_aux pre (jsSlice T a b) suf hpre hinner hsuf]
  dsimp only
  simp [fireInput]

/-- Helper: `wrap` on the state produced by a wrap (inner text selected,
markup immediately surrounding) removes exactly the surrounding markup and
restores the original buffer and selection. -/
theorem wrap_unwraps (T pre suf ph s : List Char) (a b : Nat) (dir : SelDir)
    (hab : a ≤ b) (hb : b ≤ T.length) (hsjs : s = jsSlice T a b) (hinner : MARKER ∉ s) :
    wrap ⟨T.take a ++ (pre ++ s ++ suf) ++ T.drop b,
          a + pre.length, a + (pre.length + s.length), dir⟩ (pre, suf) true ph
      = ⟨T, a, b, dir⟩ := by
  have htake : (T.take a).length = a := by
    rw [List.length_take]
    omega
  have hsl : s.length = b - a := by
    rw [hsjs]
    exact jsSlice_length_of_le T a b hab hb
  have hV1 : T.take a ++ (pre ++ s ++ suf) ++ T.drop b
      = T.take a ++ (pre ++ (s ++ (suf ++ T.drop b))) := by
    simp [List.append_assoc]
  have hV2 : T.take a ++ (pre ++ s ++ suf) ++ T.drop b
      = (T.take a ++ pre) ++ (s ++ (suf ++ T.drop b)) := by
    simp [List.append_assoc]
  have hV3 : T.take a ++ (pre ++ s ++ suf) ++ T.drop b
      = ((T.take a ++ pre) ++ s) ++ (suf ++ T.drop b) := by
    simp [List.append_assoc]
  have hV4 : T.take a ++ (pre ++ s ++ suf) ++ T.drop b
      = (((T.take a ++ pre) ++ s) ++ suf) ++ T.drop b := by
    simp [List.append_assoc]
  have hVlen : (T.take a ++ (pre ++ s ++ suf) ++ T.drop b).length
      = a + pre.length + s.length + suf.length + (T.length - b) := by
    simp [List.length_append, htake, List.length_drop]
    omega
  have hpre2 : jsSlice (T.take a ++ (pre ++ s ++ suf) ++ T.drop b)
      (a + pre.length - pre.length) (a + pre.length) = pre := by
    rw [hV1]
    exact jsSlice_mid (T.take a) pre (s ++ (suf ++ T.drop b)) _ _
      (by rw [htake]; omega) (by rw [htake])
  have hsuf2 : jsSlice (T.take a ++ (pre ++ s ++ suf) ++ T.drop b)
      (a + (pre.length + s.length)) (a + (pre.length + s.length) + suf.length) = suf := by
    rw [hV3]
    exact jsSlice_mid ((T.take a ++ pre) ++ s) suf (T.drop b) _ _
      (by simp [htake]; try omega) (by simp [htake]; try omega)
  have hs2 : jsSlice (T.take a ++ (pre ++ s ++ suf) ++ T.drop b)
      (a + pre.length) (a + (pre.length + s.length)) = s := by
    rw [hV2]
    exact jsSlice_mid (T.take a ++ pre) s (suf ++ T.drop b) _ _
      (by simp [htake]; try omega) (by simp [htake]; try omega)
  have htk : (T.take a ++ (pre ++ s ++ suf) ++ T.drop b).take (a + pre.length - pre.length)
      = T.take a := by
    rw [hV1]
    exact take_left_of_length _ _ _ (by rw [htake]; omega)
  have hdrop : (T.take a ++ (pre ++ s ++ suf) ++ T.drop b).drop
      (a + (pre.length + s.length) + suf.length) = T.drop b := by
    rw [hV4]
    exact drop_left_of_length _ _ _ (by simp [htake]; try omega)
  have hw : isSelectedWrappedWith
      ⟨T.take a ++ (pre ++ s ++ suf) ++ T.drop b,
       a + pre.length, a + (pre.length + s.length), dir⟩ (pre, suf) = true := by
    unfold isSelectedWrappedWith
    rw [selStartOrCaret_eq, selEndOrCaret_eq]
    dsimp only
    have hg1 : ¬ ((((a + pre.length : Nat) : Int)) - ((pre.length : Nat) : Int) < 0) := by
      omega
    have hg2 : ¬ (((a + (pre.length + s.length) : Nat) : Int) - 1 + ((suf.length : Nat) : Int) >
        (((T.take a ++ (pre ++ s ++ suf) ++ T.drop b).length : Nat) : Int) - 1) := by
      rw [hVlen]
      push_cast
      omega
    simp only [hg1, hg2, decide_False, Bool.or_self, Bool.false_eq_true, if_false]
    rw [hpre2, hsuf2]
    simp
  unfold wrap
  rw [selStartOrCaret_eq, selEndOrCaret_eq]
  dsimp only
  rw [hw]
  simp only [Bool.true_and, if_true]
  rw [hs2]
  have hexec2 : execRaw (MARKER :: (s ++ [MARKER]))
      = { text := s, selectionStart := some 0, selectionEnd := some s.length } := by
    have h := execRaw_two_aux [] s [] (by simp) hinner (by simp)
    simpa using h
  rw [hexec2]
  dsimp only
  simp only [fireInput]
  rw [htk, hdrop]
  have hvalue : T.take a ++ s ++ T.drop b = T := by
    rw [List.append_assoc, hsjs]
    exact take_jsSlice_drop T a b hab
  simp only [TAState.mk.injEq]
  refine ⟨hvalue, by omega, by omega, trivial⟩

/-- C2 (amended): for every buffer and markup pair free of the marker
sentinel and every non-empty selection that is NOT already wrapped with the
pair, applying `wrap` (unwrap=true) and then applying the same `wrap` again
to the resulting inner-text selection restores the original buffer and the
original selection. -/
theorem wrap_wrap_roundtrip (T pre suf ph : List Char) (a b : Nat) (dir : SelDir)
    (hab : a < b) (hb : b ≤ T.length)
    (hpre : MARKER ∉ pre) (hsuf : MARKER ∉ suf) (hinner : MARKER ∉ jsSlice T a b)
    (hnw : isSelectedWrappedWith ⟨T, a, b, dir⟩ (pre, suf) = false) :
    wrap (wrap ⟨T, a, b, dir⟩ (pre, suf) true ph) (pre, suf) true ph = ⟨T, a, b, dir⟩ := by
  rw [wrap_not_wrapped T pre suf ph a b dir hab hb hpre hsuf hinner hnw]
  exact wrap_unwraps T pre suf ph (jsSlice T a b) a b dir (le_of_lt hab) hb rfl hinner

/-- C2 counterexample: buffer `"****x****"`, selection `[4, 5)` (the `"x"`),
markup `("**", "**")`.  The selection is already wrapped, so the first
application unwraps to `"**x**"` (selection `[2, 3)`), which is again
wrapped, so the second application unwraps to `"x"` (selection `[0, 1)`) —
the original buffer and selection are NOT restored. -/
theorem wrap_wrap_cex :
    wrap (wrap ⟨"****x****".toList, 4, 5, SelDir.forward⟩ ("**".toList, "**".toList) true [])
        ("**".toList, "**".toList) true []
      = ⟨"x".toList, 0, 1, SelDir.forward⟩ ∧
    wrap (wrap ⟨"****x****".toList, 4, 5, SelDir.forward⟩ ("**".toList, "**".toList) true [])
        ("**".toList, "**".toList) true []
      ≠ ⟨"****x****".toList, 4, 5, SelDir.forward⟩ := by
  constructor
  · decide
  · decide

/-- C2 witness: bold-wrapping `"hello"` in `"hello world"` and wrapping again
restores the original state. -/
theorem wrap_wrap_roundtrip_witness :
    wrap (wrap ⟨"hello world".toList, 0, 5, SelDir.forward⟩ ("**".toList, "**".toList) true [])
        ("**".toList, "**".toList) true []
      = ⟨"hello world".toList, 0, 5, SelDir.forward⟩ :=
  wrap_wrap_roundtrip "hello world".toList "**".toList "**".toList [] 0 5 SelDir.forward
    (by decide) (by decide) (by decide) (by decide) (by decide) (by decide)
